import Mathlib

/-!
Verification development for `Source/cmDependsCompiler.cxx`: the incremental
dependency-tracking core (reconciler `CheckDependencies`, emitter
`WriteDependencies`, cleanup `ClearDependencies`).

Modelling conventions:
* C++ `std::string` paths and lines are Lean `String`s; line-level file I/O is
  modelled as lists of lines (`std::getline` / `operator<<` with `std::endl`).
* The file system is an explicit record of facts (`FS`): existence, modification
  time (a `Nat`, with `cmFileTime::Newer` as `>`), the result of opening and
  reading a text file line by line, and the result of `cmReadGccDepfile`.
* `cmDepends::DependencyMap` (`std::map<std::string, std::vector<std::string>>`)
  is an association list with distinct keys; `operator[]` assignment is
  update-in-place-or-append.  No claim below depends on the traversal order of
  the `std::map`, so the sortedness of its keys is not modelled.
* Out-of-bounds accesses that are undefined behaviour in the C++
  (`front()` on an empty vector, iterator arithmetic past `end()`) are modelled
  by returning `none`; a function returns `some` exactly when the C++ execution
  stays within defined behaviour.
-/

namespace CMDeps

/-- `cmDepends::DependencyMap`: map from target path to its ordered dependency
list, as an association list with pairwise-distinct keys. -/
abbrev DependencyMap := List (String × List String)

/-- `dependencies[target] = value`: replace the entry if the key is present,
otherwise append a fresh entry (models assignment through
`std::map::operator[]`). -/
def mapSet : DependencyMap → String → List String → DependencyMap
  | [], k, v => [(k, v)]
  | (k', v') :: rest, k, v =>
    if k' = k then (k, v) :: rest else (k', v') :: mapSet rest k v

/-- Entry lookup with the `std::map::operator[]` default: an absent key reads
as the empty vector. -/
def mapGetD : DependencyMap → String → List String
  | [], _ => []
  | (k', v) :: rest, k => if k' = k then v else mapGetD rest k

/-- The file-system facts consulted by `cmDependsCompiler`:
`fexists` is `cmSystemTools::FileExists`; `mtime` is the `cmFileTime` loaded
from a path (`Newer` is `>` on these numbers); `readLines` is the result of
opening a file with `cmsys::ifstream` and reading it line by line (`none` when
the stream fails to open); `gccDeps` is the result of `cmReadGccDepfile`
(`none` on tokenization failure, otherwise one `paths` list per entry). -/
structure FS where
  fexists : String → Bool
  mtime : String → Nat
  readLines : String → Option (List String)
  gccDeps : String → Option (List (List String))

/-- Parser state of the internal-dependency-file loader: the map being filled
and the current depender (the vector `currentDependencies` points at, `none`
while no depender line has been seen). -/
structure LoadState where
  map : DependencyMap
  cur : Option String

/-- One iteration of the `while (std::getline...)` loop of
`cmDependsCompiler::CheckDependencies` (lines 47-68), on the characters of the
line: skip empty and `#` lines, strip a trailing carriage return (skipping the
line if it becomes empty), treat a line not starting with a space as a new
depender, and append any other line (with its single leading space removed) to
the current depender's entry. -/
def loadLineData (st : LoadState) : List Char → LoadState
  | [] => st
  | c :: cs =>
    if c = '#' then st
    else
      match (if (c :: cs).getLast? = some '\r' then (c :: cs).dropLast else c :: cs) with
      | [] => st
      | c2 :: cs2 =>
        if c2 = ' ' then
          match st.cur with
          | none => st
          | some dpr =>
            { map := mapSet st.map dpr (mapGetD st.map dpr ++ [⟨cs2⟩]), cur := st.cur }
        else
          { map := mapSet st.map ⟨c2 :: cs2⟩ (mapGetD st.map ⟨c2 :: cs2⟩),
            cur := some ⟨c2 :: cs2⟩ }

/-- `loadLineData` on the characters of a line string. -/
def loadLine (st : LoadState) (line : String) : LoadState :=
  loadLineData st line.data

/-- The internal-dependency-file loader embedded in `CheckDependencies`
(lines 42-70), fed with the file's lines, starting from the caller's map. -/
def loadInternalLines (lines : List String) (m : DependencyMap) : DependencyMap :=
  (lines.foldl loadLine { map := m, cur := none }).map

/-- The `if (isValidPath)` block at lines 144-148: drop every path the
predicate marks invalid (`true` = exclude), then insert the source at
position 0.  With no predicate the list is left as is. -/
def applyPred (source : String) (pred : Option (String → Bool))
    (depends : List String) : List String :=
  match pred with
  | none => depends
  | some isValidPath => source :: depends.filter (fun x => !(isValidPath x))

/-- The gcc-format postprocessing of lines 118-141, applied to the first
entry's `paths` from `cmReadGccDepfile`.  Result encoding: `none` = the C++
performs `front()` on an empty vector (undefined behaviour); `some none` = the
record is skipped (`continue`); `some (some l)` = `l` is the dependency list
handed to the predicate block. -/
def gccExtract (target source : String) (pred : Option (String → Bool))
    (paths : List String) : Option (Option (List String)) :=
  match paths with
  | [] => some none
  | p0 :: ps =>
    match (if p0 = target then ps else p0 :: ps) with
    | [] => none
    | d :: rest =>
      if d ≠ source then
        let pruned := (d :: rest).filter (fun x => x != source)
        if pred.isNone then some (some (source :: pruned)) else some (some pruned)
      else
        if pred.isSome then some (some rest) else some (some (d :: rest))

/-- The per-record parsing of lines 97-142: the `"msvc"` (flat listing) branch
prepends the source when no predicate is supplied and appends the file's lines;
any other format goes through `cmReadGccDepfile` and `gccExtract`.  Encoding as
in `gccExtract`: `none` = undefined behaviour, `some none` = record skipped,
`some (some l)` = parsed list. -/
def parseRecord (fs : FS) (pred : Option (String → Bool))
    (source target format depFile : String) : Option (Option (List String)) :=
  if format = "msvc" then
    match fs.readLines depFile with
    | none => some none
    | some lines => some (some ((if pred.isNone then [source] else []) ++ lines))
  else
    match fs.gccDeps depFile with
    | none => some none
    | some [] => none
    | some (paths :: _) => gccExtract target source pred paths

/-- One iteration of the record loop of `CheckDependencies` (lines 76-152),
acting on the running `(status, dependencies)` state: skip records whose
depfile is missing; reparse when `forceReadDeps` or the depfile is newer than
the internal file, marking the status stale and storing the parsed list (after
the predicate block) under the record's target; otherwise leave the state
untouched. -/
def recordResult (fs : FS) (internalTime : Nat) (forceReadDeps : Bool)
    (pred : Option (String → Bool)) (source target format depFile : String)
    (st : Bool × DependencyMap) : Option (Bool × DependencyMap) :=
  if fs.fexists depFile = false then some st
  else if forceReadDeps = true ∨ internalTime < fs.mtime depFile then
    match parseRecord fs pred source target format depFile with
    | none => none
    | some none => some (false, st.2)
    | some (some depends) =>
      some (false, mapSet st.2 target (applyPred source pred depends))
  else some st

/-- The record loop of `CheckDependencies`: four consecutive entries of the
flat `depFiles` sequence form one record (source, target, format, depfile).
A leftover of one to three entries makes the C++ iterator arithmetic walk past
`end()`; this is modelled as `none`. -/
def processRecords (fs : FS) (internalTime : Nat) (forceReadDeps : Bool)
    (pred : Option (String → Bool)) :
    List String → Bool × DependencyMap → Option (Bool × DependencyMap)
  | [], st => some st
  | source :: target :: format :: depFile :: rest, st =>
    match recordResult fs internalTime forceReadDeps pred source target format depFile st with
    | none => none
    | some st' => processRecords fs internalTime forceReadDeps pred rest st'
  | _, _ => none

/-- `cmDependsCompiler::CheckDependencies` (lines 27-155): load the internal
dependency file when it exists (an unopenable stream silently skips the load
but still clears `forceReadDeps`), then run the record loop.  Returns
`some (status, map)` where `status` is true iff no record required reparsing. -/
def CheckDependencies (fs : FS) (internalDepFile : String)
    (depFiles : List String) (dependencies : DependencyMap)
    (pred : Option (String → Bool)) : Option (Bool × DependencyMap) :=
  if fs.fexists internalDepFile then
    let deps0 :=
      match fs.readLines internalDepFile with
      | some lines => loadInternalLines lines dependencies
      | none => dependencies
    processRecords fs (fs.mtime internalDepFile) false pred depFiles (true, deps0)
  else
    processRecords fs 0 true pred depFiles (true, dependencies)

/-- `std::unordered_set::emplace` on the phony-target set, modelled as a
duplicate-free list in first-insertion order. -/
def insertPhony (s : List String) (p : String) : List String :=
  if p ∈ s then s else s ++ [p]

/-- One target's block in the internal cache file (lines 197-202), as the
sequence of strings the C++ terminates with `std::endl`: the target, each
dependency prefixed with one space, then an empty separator emission. -/
def nodeLines (k : String) (deps : List String) : List String :=
  k :: deps.map (fun d => (⟨' ' :: d.data⟩ : String)) ++ [""]

/-- Internal cache file emission of `WriteDependencies` (lines 197-203) as the
sequence of `std::endl`-terminated emissions: one `nodeLines` block per
target, in map order.  The actual bytes written to the stream are
`encodeLines` of this sequence. -/
def writeInternalLines (m : DependencyMap) : List String :=
  (m.map (fun node => nodeLines node.1 node.2)).flatten

/-- The bytes a sequence of `operator<< ... << std::endl` emissions puts on a
stream: each string's characters followed by one newline.  A string holding an
embedded newline thus lands on the stream as several physical lines. -/
def encodeLines (lines : List String) : List Char :=
  (lines.map (fun l => l.data ++ ['\n'])).flatten

/-- The character content of the internal cache file written by
`WriteDependencies` (lines 196-203). -/
def writeInternalChars (m : DependencyMap) : List Char :=
  encodeLines (writeInternalLines m)

/-- `std::getline` applied repeatedly to a character stream: each line is the
run of characters up to, and not including, the next newline; a final run
without a trailing newline is still a line; the empty stream has no lines. -/
def getLinesData : List Char → List (List Char)
  | [] => []
  | c :: cs =>
    if c = '\n' then [] :: getLinesData cs
    else
      match getLinesData cs with
      | [] => [[c]]
      | l :: ls => (c :: l) :: ls

/-- The lines `std::getline` yields from a character stream, as strings. -/
def getLines (cs : List Char) : List String :=
  (getLinesData cs).map String.mk

/-- One iteration of the make-file emission loop of `WriteDependencies`
(lines 170-189), threading the text produced so far and the phony-target set:
convert every dependency, print `target: first-dep`, then one continuation per
remaining dependency while collecting it into the phony set.  `front()` on an
empty converted list is undefined behaviour, modelled as `none`. -/
def writeMakeNode (convTarget convDep : String → String) (lineContinue : String)
    (st : String × List String) (node : String × List String) :
    Option (String × List String) :=
  match node.2.map convDep with
  | [] => none
  | d0 :: rest =>
    some
      (rest.foldl (fun t d => t ++ " " ++ lineContinue ++ "  " ++ d)
        (st.1 ++ convTarget node.1 ++ ": " ++ d0) ++ "\n\n",
       rest.foldl insertPhony st.2)

/-- The full make-file emission loop over the map. -/
def writeMakeDeps (convTarget convDep : String → String) (lineContinue : String) :
    DependencyMap → String × List String → Option (String × List String)
  | [], st => some st
  | node :: rest, st =>
    match writeMakeNode convTarget convDep lineContinue st node with
    | none => none
    | some st' => writeMakeDeps convTarget convDep lineContinue rest st'

/-- `cmDependsCompiler::WriteDependencies` (lines 157-204): emit the
build-tool-facing file (rule blocks, then one phony rule per collected path)
and the internal cache file.  `convTarget` is `ConvertToMakefilePath` as
applied to targets; `convDep` is its composition with
`MaybeConvertToRelativePath` as applied to dependencies; `lineContinue` is the
generator's `LineContinueDirective`.  Returns the two streams' contents
(`String` for the make stream, lines for the internal stream), `none` when the
C++ hits `front()` on an empty dependency vector. -/
def WriteDependencies (convTarget convDep : String → String) (lineContinue : String)
    (m : DependencyMap) : Option (String × List String) :=
  match writeMakeDeps convTarget convDep lineContinue m ("", []) with
  | none => none
  | some (txt, phony) =>
    some (phony.foldl (fun t p => t ++ "\n" ++ p ++ ":\n") txt, writeInternalLines m)

/-- `cmDependsCompiler::ClearDependencies` (lines 206-213): advance four
positions per record and remove the file at the record's fourth entry.
Returns the list of removed paths, `none` when the sequence length is not a
multiple of four (the C++ iterator walks past `end()`). -/
def ClearDependencies : List String → Option (List String)
  | [] => some []
  | _ :: _ :: _ :: depFile :: rest =>
    match ClearDependencies rest with
    | none => none
    | some l => some (depFile :: l)
  | _ => none

/-- A target key the internal-file encoding represents faithfully: nonempty,
not a comment line, not a dependee line, not ending in a carriage return (the
loader strips a trailing CR), and without an embedded newline (`operator<<`
would spread it over several physical lines). -/
def goodKey (k : String) : Prop :=
  k.data ≠ [] ∧ k.data.head? ≠ some '#' ∧ k.data.head? ≠ some ' ' ∧
    k.data.getLast? ≠ some '\r' ∧ '\n' ∉ k.data

/-- A dependency path the internal-file encoding represents faithfully: it
must not end in a carriage return and must not hold an embedded newline. -/
def goodDep (d : String) : Prop :=
  d.data.getLast? ≠ some '\r' ∧ '\n' ∉ d.data

instance (k : String) : Decidable (goodKey k) := by unfold goodKey; infer_instance

instance (d : String) : Decidable (goodDep d) := by unfold goodDep; infer_instance

/- ## Association-list map lemmas -/

theorem mapGetD_mapSet (m : DependencyMap) (k : String) (v : List String) :
    mapGetD (mapSet m k v) k = v := by
  induction m with
  | nil => simp [mapSet, mapGetD]
  | cons kv rest ih =>
    obtain ⟨k', v'⟩ := kv
    by_cases h : k' = k
    · simp [mapSet, mapGetD, h]
    · simp [mapSet, mapGetD, h, ih]

theorem mapSet_mapSet (m : DependencyMap) (k : String) (v w : List String) :
    mapSet (mapSet m k v) k w = mapSet m k w := by
  induction m with
  | nil => simp [mapSet]
  | cons kv rest ih =>
    obtain ⟨k', v'⟩ := kv
    by_cases h : k' = k
    · simp [mapSet, h]
    · simp [mapSet, h, ih]

theorem mapSet_eq_append (m : DependencyMap) (k : String) (v : List String)
    (h : k ∉ m.map Prod.fst) : mapSet m k v = m ++ [(k, v)] := by
  induction m with
  | nil => simp [mapSet]
  | cons kv rest ih =>
    obtain ⟨k', v'⟩ := kv
    simp only [List.map_cons, List.mem_cons] at h
    push_neg at h
    have hne : k' ≠ k := fun he => h.1 he.symm
    simp [mapSet, hne, ih h.2]

theorem mapGetD_eq_nil (m : DependencyMap) (k : String)
    (h : k ∉ m.map Prod.fst) : mapGetD m k = [] := by
  induction m with
  | nil => simp [mapGetD]
  | cons kv rest ih =>
    obtain ⟨k', v'⟩ := kv
    simp only [List.map_cons, List.mem_cons] at h
    push_neg at h
    have hne : k' ≠ k := fun he => h.1 he.symm
    simp [mapGetD, hne, ih h.2]

theorem mapSet_getD_self (m : DependencyMap) (k : String)
    (h : k ∈ m.map Prod.fst) : mapSet m k (mapGetD m k) = m := by
  induction m with
  | nil => simp at h
  | cons kv rest ih =>
    obtain ⟨k', v'⟩ := kv
    by_cases he : k' = k
    · subst he
      simp [mapSet, mapGetD]
    · simp only [List.map_cons, List.mem_cons] at h
      rcases h with h | h
      · exact absurd h.symm he
      · simp [mapSet, mapGetD, he, ih h]

theorem mem_keys_mapSet (m : DependencyMap) (k : String) (v : List String) :
    k ∈ (mapSet m k v).map Prod.fst := by
  induction m with
  | nil => simp [mapSet]
  | cons kv rest ih =>
    obtain ⟨k', v'⟩ := kv
    by_cases h : k' = k
    · simp [mapSet, h]
    · simp [mapSet, h, ih]

/- ## Internal-file loader lemmas -/

theorem mk_data (s : String) : String.mk s.data = s := rfl

theorem loadLine_blank (st : LoadState) : loadLine st "" = st := rfl

theorem loadLineData_key (st : LoadState) (c0 : Char) (cs : List Char)
    (h2 : c0 ≠ '#') (h3 : c0 ≠ ' ') (h4 : (c0 :: cs).getLast? ≠ some '\r') :
    loadLineData st (c0 :: cs) =
      { map := mapSet st.map ⟨c0 :: cs⟩ (mapGetD st.map ⟨c0 :: cs⟩),
        cur := some ⟨c0 :: cs⟩ } := by
  simp [loadLineData, h2, h3, if_neg h4]

theorem loadLineData_dep (m : DependencyMap) (k d : String)
    (hr : d.data.getLast? ≠ some '\r') :
    loadLineData { map := m, cur := some k } (' ' :: d.data) =
      { map := mapSet m k (mapGetD m k ++ [d]), cur := some k } := by
  have h4 : (' ' :: d.data).getLast? ≠ some '\r' := by
    cases hd : d.data with
    | nil => simp
    | cons a as =>
      rw [List.getLast?_cons_cons]
      rw [hd] at hr
      exact hr
  have h1 : (' ' : Char) ≠ '#' := by decide
  simp [loadLineData, h1, if_neg h4, mk_data]

theorem load_depLines (deps : List String) : ∀ (m : DependencyMap) (k : String),
    k ∈ m.map Prod.fst → (∀ d ∈ deps, goodDep d) →
    List.foldl loadLine { map := m, cur := some k }
        (deps.map (fun d => (⟨' ' :: d.data⟩ : String))) =
      { map := mapSet m k (mapGetD m k ++ deps), cur := some k } := by
  induction deps with
  | nil =>
    intro m k hk _
    simp [mapSet_getD_self m k hk]
  | cons d ds ih =>
    intro m k hk hgood
    simp only [List.map_cons, List.foldl_cons]
    have hstep : loadLine { map := m, cur := some k } ⟨' ' :: d.data⟩ =
        { map := mapSet m k (mapGetD m k ++ [d]), cur := some k } :=
      loadLineData_dep m k d (hgood d (by simp)).1
    rw [hstep, ih _ k (mem_keys_mapSet m k _) (fun x hx => hgood x (by simp [hx]))]
    rw [mapGetD_mapSet, mapSet_mapSet, List.append_assoc, List.singleton_append]

theorem load_nodeLines (m : DependencyMap) (c : Option String) (k : String)
    (deps : List String) (hk : goodKey k) (hd : ∀ d ∈ deps, goodDep d) :
    List.foldl loadLine { map := m, cur := c } (nodeLines k deps) =
      { map := mapSet m k (mapGetD m k ++ deps), cur := some k } := by
  obtain ⟨h1, h2, h3, h4, _⟩ := hk
  obtain ⟨l⟩ := k
  cases l with
  | nil => exact absurd rfl h1
  | cons c0 cs =>
    simp only [String.data] at h2 h3 h4
    rw [List.head?_cons] at h2 h3
    have hc2 : c0 ≠ '#' := fun he => h2 (by rw [he])
    have hc3 : c0 ≠ ' ' := fun he => h3 (by rw [he])
    unfold nodeLines
    rw [List.cons_append, List.foldl_cons]
    have hkey : loadLine { map := m, cur := c } ⟨c0 :: cs⟩ =
        { map := mapSet m ⟨c0 :: cs⟩ (mapGetD m ⟨c0 :: cs⟩), cur := some ⟨c0 :: cs⟩ } :=
      loadLineData_key _ c0 cs hc2 hc3 h4
    rw [hkey, List.foldl_append,
      load_depLines deps _ _ (mem_keys_mapSet m _ _) hd,
      mapGetD_mapSet, mapSet_mapSet]
    simp [loadLine_blank]

theorem writeInternalLines_cons (k : String) (deps : List String)
    (rest : DependencyMap) :
    writeInternalLines ((k, deps) :: rest) =
      nodeLines k deps ++ writeInternalLines rest := by
  simp [writeInternalLines]

theorem load_write_aux : ∀ (m acc : DependencyMap) (c : Option String),
    (m.map Prod.fst).Nodup →
    (∀ k ∈ m.map Prod.fst, k ∉ acc.map Prod.fst) →
    (∀ kv ∈ m, goodKey kv.1) →
    (∀ kv ∈ m, ∀ x ∈ kv.2, goodDep x) →
    (List.foldl loadLine { map := acc, cur := c } (writeInternalLines m)).map =
      acc ++ m := by
  intro m
  induction m with
  | nil =>
    intro acc c _ _ _ _
    simp [writeInternalLines]
  | cons node rest ih =>
    intro acc c hnd hdisj hk hd
    obtain ⟨k, deps⟩ := node
    rw [writeInternalLines_cons, List.foldl_append,
      load_nodeLines acc c k deps (hk (k, deps) (by simp))
        (hd (k, deps) (by simp))]
    have hknotin : k ∉ acc.map Prod.fst := hdisj k (by simp)
    rw [mapGetD_eq_nil acc k hknotin, List.nil_append,
      mapSet_eq_append acc k deps hknotin]
    simp only [List.map_cons, List.nodup_cons] at hnd
    rw [ih (acc ++ [(k, deps)]) (some k) hnd.2 ?_ (fun kv hkv => hk kv (by simp [hkv]))
      (fun kv hkv => hd kv (by simp [hkv]))]
    · rw [List.append_assoc, List.singleton_append]
    · intro k' hk'
      simp only [List.map_append, List.mem_append, List.map_cons, List.map_nil,
        List.mem_singleton, List.mem_cons]
      push_neg
      refine ⟨hdisj k' (by simp [hk']), ?_, by simp⟩
      rintro rfl
      exact hnd.1 hk'

/- ## Character-stream lemmas -/

theorem getLinesData_append (l : List Char) (rest : List Char)
    (h : '\n' ∉ l) :
    getLinesData (l ++ '\n' :: rest) = l :: getLinesData rest := by
  induction l with
  | nil => simp [getLinesData]
  | cons c l' ih =>
    simp only [List.mem_cons] at h
    push_neg at h
    rw [List.cons_append]
    simp only [getLinesData]
    rw [if_neg (fun he => h.1 he.symm), ih h.2]

theorem getLines_encodeLines : ∀ lines : List String,
    (∀ l ∈ lines, '\n' ∉ l.data) → getLines (encodeLines lines) = lines := by
  intro lines
  induction lines with
  | nil => intro _; rfl
  | cons l ls ih =>
    intro h
    unfold getLines encodeLines
    simp only [List.map_cons, List.flatten_cons]
    rw [List.append_assoc, List.singleton_append,
      getLinesData_append l.data _ (h l (by simp))]
    simp only [List.map_cons, mk_data]
    have hrec := ih (fun x hx => h x (by simp [hx]))
    unfold getLines encodeLines at hrec
    rw [hrec]

theorem writeInternalLines_no_newline : ∀ m : DependencyMap,
    (∀ kv ∈ m, goodKey kv.1) → (∀ kv ∈ m, ∀ x ∈ kv.2, goodDep x) →
    ∀ l ∈ writeInternalLines m, '\n' ∉ l.data := by
  intro m
  induction m with
  | nil =>
    intro _ _ l hl
    simp [writeInternalLines] at hl
  | cons node rest ih =>
    intro hk hd l hl
    obtain ⟨k, deps⟩ := node
    rw [writeInternalLines_cons, List.mem_append] at hl
    rcases hl with hl | hl
    · unfold nodeLines at hl
      rw [List.cons_append, List.mem_cons] at hl
      rcases hl with heq | hl
      · rw [heq]
        exact (hk (k, deps) (by simp)).2.2.2.2
      · rw [List.mem_append] at hl
        rcases hl with hl | hl
        · rw [List.mem_map] at hl
          obtain ⟨d, hd2, rfl⟩ := hl
          intro hcontra
          rw [show (⟨' ' :: d.data⟩ : String).data = ' ' :: d.data from rfl,
            List.mem_cons] at hcontra
          rcases hcontra with he | hin
          · exact absurd he (by decide)
          · exact (hd (k, deps) (by simp) d hd2).2 hin
        · rw [List.mem_singleton] at hl
          subst hl
          simp
    · exact ih (fun kv hkv => hk kv (by simp [hkv]))
        (fun kv hkv => hd kv (by simp [hkv])) l hl

/- ## Phony-target-set lemmas -/

theorem mem_insertPhony (s : List String) (p q : String) :
    q ∈ insertPhony s p ↔ q ∈ s ∨ q = p := by
  unfold insertPhony
  split
  · rename_i hmem
    constructor
    · exact Or.inl
    · rintro (h | rfl)
      · exact h
      · exact hmem
  · simp

theorem nodup_insertPhony (s : List String) (p : String) (h : s.Nodup) :
    (insertPhony s p).Nodup := by
  unfold insertPhony
  split
  · exact h
  · rename_i hp
    simp [List.nodup_append, h, hp]

theorem mem_foldl_insertPhony (l : List String) : ∀ (s : List String) (q : String),
    q ∈ l.foldl insertPhony s ↔ q ∈ s ∨ q ∈ l := by
  induction l with
  | nil => simp
  | cons a l ih =>
    intro s q
    rw [List.foldl_cons, ih, mem_insertPhony]
    simp only [List.mem_cons]
    tauto

theorem nodup_foldl_insertPhony (l : List String) : ∀ s : List String,
    s.Nodup → (l.foldl insertPhony s).Nodup := by
  induction l with
  | nil => exact fun s h => h
  | cons a l ih =>
    intro s h
    rw [List.foldl_cons]
    exact ih _ (nodup_insertPhony s a h)

/- ## Emitter lemmas -/

theorem writeMakeDeps_aux (ct cd : String → String) (lc : String) :
    ∀ (m : DependencyMap) (st : String × List String) (txt : String)
      (ph : List String), writeMakeDeps ct cd lc m st = some (txt, ph) →
    (st.2.Nodup → ph.Nodup) ∧
      (∀ q, q ∈ ph ↔ q ∈ st.2 ∨ ∃ kv ∈ m, q ∈ (kv.2.map cd).tail) := by
  intro m
  induction m with
  | nil =>
    intro st txt ph h
    simp only [writeMakeDeps, Option.some_inj] at h
    subst h
    simp
  | cons node rest ih =>
    intro st txt ph h
    rw [writeMakeDeps] at h
    cases hn : writeMakeNode ct cd lc st node with
    | none => rw [hn] at h; simp at h
    | some st' =>
      rw [hn] at h
      simp only at h
      obtain ⟨hnodup, hmem⟩ := ih st' txt ph h
      unfold writeMakeNode at hn
      cases hm : node.2.map cd with
      | nil => rw [hm] at hn; simp at hn
      | cons d0 r =>
        rw [hm] at hn
        simp only [Option.some_inj] at hn
        have hsnd : st'.2 = r.foldl insertPhony st.2 := by rw [← hn]
        constructor
        · intro hs
          exact hnodup (by rw [hsnd]; exact nodup_foldl_insertPhony r st.2 hs)
        · intro q
          rw [hmem q, hsnd, mem_foldl_insertPhony]
          simp only [List.exists_mem_cons_iff, hm, List.tail_cons]
          tauto

theorem writeMakeDeps_isSome (ct cd : String → String) (lc : String) :
    ∀ (m : DependencyMap) (st : String × List String),
    (writeMakeDeps ct cd lc m st).isSome = true ↔ ∀ kv ∈ m, kv.2 ≠ [] := by
  intro m
  induction m with
  | nil => intro st; simp [writeMakeDeps]
  | cons node rest ih =>
    intro st
    rw [writeMakeDeps]
    unfold writeMakeNode
    cases hm : node.2.map cd with
    | nil =>
      have h2 : node.2 = [] := by simpa using hm
      simp [h2]
    | cons d0 r =>
      have h2 : node.2 ≠ [] := by
        intro he
        rw [he] at hm
        simp at hm
      simp only [ih]
      simp [h2]

/- ## Stride-4 iteration lemmas -/

theorem processRecords_mod (fs : FS) (it : Nat) (fr : Bool)
    (p : Option (String → Bool)) :
    ∀ (l : List String) (st : Bool × DependencyMap),
      l.length % 4 ≠ 0 → processRecords fs it fr p l st = none
  | [], _, h => absurd rfl h
  | [_], _, _ => rfl
  | [_, _], _, _ => rfl
  | [_, _, _], _, _ => rfl
  | a :: b :: c :: d :: rest, st, h => by
    rw [processRecords]
    cases hr : recordResult fs it fr p a b c d st with
    | none => rfl
    | some st' =>
      refine processRecords_mod fs it fr p rest st' ?_
      simp only [List.length_cons] at h
      omega

theorem clearDependencies_isSome : ∀ l : List String,
    (ClearDependencies l).isSome = true ↔ l.length % 4 = 0
  | [] => by simp [ClearDependencies]
  | [_] => by simp [ClearDependencies]
  | [_, _] => by simp [ClearDependencies]
  | [_, _, _] => by simp [ClearDependencies]
  | a :: b :: c :: d :: rest => by
    rw [ClearDependencies]
    have ih := clearDependencies_isSome rest
    simp only [List.length_cons]
    cases hr : ClearDependencies rest with
    | none =>
      rw [hr] at ih
      simp only [Option.isSome_none, Bool.false_eq_true, false_iff] at ih ⊢
      omega
    | some l' =>
      rw [hr] at ih
      simp only [Option.isSome_some, true_iff] at ih
      simp only [Option.isSome_some, true_iff]
      omega

/- ## Parsed-list head lemma -/

theorem parsed_head (fs : FS) (p : Option (String → Bool)) (s t f d : String)
    (dep : List String) (hp : parseRecord fs p s t f d = some (some dep)) :
    (applyPred s p dep).head? = some s := by
  cases p with
  | some pr => simp [applyPred]
  | none =>
    simp only [applyPred]
    unfold parseRecord at hp
    by_cases hf : f = "msvc"
    · rw [if_pos hf] at hp
      cases hr : fs.readLines d with
      | none => rw [hr] at hp; simp at hp
      | some lines =>
        rw [hr] at hp
        simp only [Option.isNone_none, if_pos rfl, Option.some_inj] at hp
        rw [← hp]
        simp
    · rw [if_neg hf] at hp
      cases hg : fs.gccDeps d with
      | none => rw [hg] at hp; simp at hp
      | some entries =>
        rw [hg] at hp
        cases entries with
        | nil => simp at hp
        | cons paths es =>
          simp only at hp
          unfold gccExtract at hp
          cases paths with
          | nil => simp at hp
          | cons p0 ps =>
            simp only at hp
            split at hp
            · simp at hp
            · rename_i d0 rest heq
              split at hp
              · simp only [Option.isNone_none, if_true, Option.some_inj] at hp
                rw [← hp]
                simp
              · rename_i hds
                push_neg at hds
                simp only [Option.isSome_none, Bool.false_eq_true, if_false,
                  Option.some_inj] at hp
                rw [← hp, hds]
                simp

/-- In the gcc branch, once the paths list is a nonempty cons, the record is
never skipped: every outcome is either undefined behaviour or a parsed list. -/
theorem gccExtract_cons_ne_skip (t s : String) (p : Option (String → Bool))
    (p0 : String) (ps : List String) :
    gccExtract t s p (p0 :: ps) ≠ some none := by
  simp only [gccExtract]
  split
  · simp
  · split
    · split <;> simp
    · split <;> simp

/- ## Claim theorems -/

/-- Claim C1: for a record whose depfile exists on disk, `CheckDependencies`
reparses it iff `forceReadDeps` was set at the start of the pass or the
depfile's timestamp is newer than the internal dependency file's; when no
reparse is required the `(status, map)` state is returned completely
untouched (so a `true` status stays `true`), and whenever the staleness test
fires the returned status is `false`. -/
theorem claim_c1 (fs : FS) (it : Nat) (fr : Bool) (p : Option (String → Bool))
    (s t f d : String) (st : Bool × DependencyMap)
    (hex : fs.fexists d = true) :
    (¬(fr = true ∨ it < fs.mtime d) →
      recordResult fs it fr p s t f d st = some st) ∧
    ((fr = true ∨ it < fs.mtime d) → ∀ b m2,
      recordResult fs it fr p s t f d st = some (b, m2) → b = false) := by
  constructor
  · intro hcond
    simp [recordResult, hex, hcond]
  · intro hcond b m2 h
    simp only [recordResult, hex] at h
    rw [if_neg (by decide), if_pos hcond] at h
    cases hp : parseRecord fs p s t f d with
    | none => rw [hp] at h; simp at h
    | some o =>
      rw [hp] at h
      cases o with
      | none =>
        simp at h
        exact h.1
      | some dep =>
        simp at h
        exact h.1

def fsW1 : FS where
  fexists := fun _ => true
  mtime := fun _ => 3
  readLines := fun _ => none
  gccDeps := fun _ => none

/-- Witness for C1 at a concrete input: internal file at time 5, depfile at
time 3, no `forceReadDeps` — the record is left untouched. -/
theorem claim_c1_witness :
    recordResult fsW1 5 false none "s" "t" "msvc" "d" (true, []) =
      some (true, []) :=
  (claim_c1 fsW1 5 false none "s" "t" "msvc" "d" (true, []) rfl).1 (by decide)

/-- Claim C2: whenever a record is successfully reconciled (depfile present,
staleness test fired, parser produced a list), the list stored under the
record's target has the record's source at index 0 — for either format and
with or without a validity predicate. -/
theorem claim_c2 (fs : FS) (it : Nat) (fr : Bool) (p : Option (String → Bool))
    (s t f d : String) (st : Bool × DependencyMap) (dep : List String)
    (hex : fs.fexists d = true) (hcond : fr = true ∨ it < fs.mtime d)
    (hp : parseRecord fs p s t f d = some (some dep)) :
    recordResult fs it fr p s t f d st =
      some (false, mapSet st.2 t (applyPred s p dep)) ∧
    (mapGetD (mapSet st.2 t (applyPred s p dep)) t).head? = some s := by
  constructor
  · simp [recordResult, hex, hcond, hp]
  · rw [mapGetD_mapSet]
    exact parsed_head fs p s t f d dep hp

def fsW2 : FS where
  fexists := fun _ => true
  mtime := fun _ => 7
  readLines := fun _ => some ["x"]
  gccDeps := fun _ => none

/-- Witness for C2 at a concrete input (flat listing, no predicate). -/
theorem claim_c2_witness :
    recordResult fsW2 0 true none "s" "t" "msvc" "d" (true, []) =
      some (false, mapSet [] "t" (applyPred "s" none ["s", "x"])) ∧
    (mapGetD (mapSet [] "t" (applyPred "s" none ["s", "x"])) "t").head? =
      some "s" :=
  claim_c2 fsW2 0 true none "s" "t" "msvc" "d" (true, []) ["s", "x"] rfl
    (Or.inl rfl) rfl

/-- Claim C5: a record with a missing depfile is skipped with the whole state
(map entry and status) unchanged; a record whose depfile parses unsuccessfully
after the staleness test fired is skipped with the map unchanged and the
status stale; and a parse failure is exactly: unopenable flat listing, failed
gcc tokenization, or a gcc result whose first entry has an empty path list. -/
theorem claim_c5 (fs : FS) (it : Nat) (fr : Bool) (p : Option (String → Bool))
    (s t f d : String) (st : Bool × DependencyMap) :
    (fs.fexists d = false → recordResult fs it fr p s t f d st = some st) ∧
    (fs.fexists d = true → (fr = true ∨ it < fs.mtime d) →
      parseRecord fs p s t f d = some none →
      recordResult fs it fr p s t f d st = some (false, st.2)) ∧
    (parseRecord fs p s t f d = some none ↔
      (f = "msvc" ∧ fs.readLines d = none) ∨
      (f ≠ "msvc" ∧ (fs.gccDeps d = none ∨
        ∃ es, fs.gccDeps d = some ([] :: es)))) := by
  refine ⟨?_, ?_, ?_⟩
  · intro hmiss
    simp [recordResult, hmiss]
  · intro hex hcond hp
    simp [recordResult, hex, hcond, hp]
  · unfold parseRecord
    by_cases hf : f = "msvc"
    · rw [if_pos hf]
      cases hr : fs.readLines d with
      | none => simp [hf, hr]
      | some lines => simp [hf, hr]
    · rw [if_neg hf]
      rw [show fs.gccDeps d = fs.gccDeps d from rfl]
      cases hg : fs.gccDeps d with
      | none => simp [hf]
      | some entries =>
        cases entries with
        | nil => simp [hf]
        | cons paths es2 =>
          show gccExtract t s p paths = some none ↔ _
          cases paths with
          | nil =>
            constructor
            · intro _
              exact Or.inr ⟨hf, Or.inr ⟨es2, rfl⟩⟩
            · intro _
              rfl
          | cons p0 ps =>
            constructor
            · intro h
              exact absurd h (gccExtract_cons_ne_skip t s p p0 ps)
            · rintro (⟨hmsvc, _⟩ | ⟨_, hcase⟩)
              · exact absurd hmsvc hf
              · rcases hcase with hnone | ⟨es, hes⟩
                · cases hnone
                · simp at hes

def fsW5 : FS where
  fexists := fun p => p != "gone"
  mtime := fun _ => 3
  readLines := fun _ => none
  gccDeps := fun _ => none

/-- Witness for C5 at concrete inputs: a missing depfile leaves the state
untouched, an unopenable flat-listing depfile is skipped with a stale
status and the prior map entry preserved. -/
theorem claim_c5_witness :
    recordResult fsW5 0 true none "s" "t" "msvc" "gone"
        (true, [("t", ["old"])]) = some (true, [("t", ["old"])]) ∧
    recordResult fsW5 0 true none "s" "t" "msvc" "d"
        (true, [("t", ["old"])]) = some (false, [("t", ["old"])]) :=
  ⟨(claim_c5 fsW5 0 true none "s" "t" "msvc" "gone" (true, [("t", ["old"])])).1
      (by decide),
   (claim_c5 fsW5 0 true none "s" "t" "msvc" "d" (true, [("t", ["old"])])).2.1
      (by decide) (Or.inl rfl) (by decide)⟩

def fsC3 : FS where
  fexists := fun _ => true
  mtime := fun _ => 3
  readLines := fun p => if p = "dep" then some ["x", "src"] else none
  gccDeps := fun _ => none

/-- Counterexample to claim C3: for the flat-listing format with no validity
predicate, a depfile whose lines are `x`, `src` (source `src` not first) is
stored as `[src, x, src]` — the existing occurrence of the source is NOT
removed (the source occurs twice), contradicting the claimed normalization
for this format, which would store `[src, x]`. -/
theorem claim_c3_cex :
    recordResult fsC3 0 true none "src" "tgt" "msvc" "dep" (true, []) =
      some (false, [("tgt", ["src", "x", "src"])]) ∧
    (["src", "x", "src"] : List String).count "src" = 2 := by
  exact ⟨by decide, by decide⟩

/-- Amended C3: the remove-then-reinsert normalization applies only to the
gcc-style format.  For the flat listing the parsed list is the source
(prepended only when no predicate is supplied) followed by the file's lines
unchanged.  For the gcc format, after the possible removal of a leading
target: when the front is not the source, every occurrence of the source is
removed and the source is re-inserted at position 0 exactly when no predicate
was supplied; when the front is the source, it is removed exactly when a
predicate was supplied. -/
theorem claim_c3_amended :
    (∀ (fs : FS) (p : Option (String → Bool)) (s t d : String)
      (lines : List String), fs.readLines d = some lines →
      parseRecord fs p s t "msvc" d =
        some (some ((if p.isNone then [s] else []) ++ lines))) ∧
    (∀ (t s : String) (p : Option (String → Bool)) (d0 : String)
      (rest : List String), d0 ≠ t → d0 ≠ s →
      gccExtract t s p (d0 :: rest) =
        some (some (if p.isNone then s :: (d0 :: rest).filter (fun x => x != s)
          else (d0 :: rest).filter (fun x => x != s)))) ∧
    (∀ (t s : String) (p : Option (String → Bool)) (rest : List String),
      s ≠ t →
      gccExtract t s p (s :: rest) =
        some (some (if p.isSome then rest else s :: rest))) := by
  refine ⟨?_, ?_, ?_⟩
  · intro fs p s t d lines hr
    simp [parseRecord, hr]
  · intro t s p d0 rest hdt hds
    cases p <;> simp [gccExtract, hdt, hds]
  · intro t s p rest hst
    cases p <;> simp [gccExtract, hst]

/-- Witness for the amended C3 at a concrete input (flat listing, no
predicate, source occurring in the file's lines). -/
theorem claim_c3_amended_witness :
    parseRecord fsC3 none "src" "tgt" "msvc" "dep" =
      some (some ["src", "x", "src"]) :=
  claim_c3_amended.1 fsC3 none "src" "tgt" "dep" ["x", "src"] rfl

/-- Counterexample to claim C4: the map with the single target `#t` and
nonempty dependency list `[s]` satisfies the claim's hypotheses, but writing
the internal stream and re-reading it line by line loses the entry (the
loader treats the `#t` line as a comment), so the round trip does not
reproduce the map. -/
theorem claim_c4_cex :
    (∀ kv ∈ ([("#t", ["s"])] : DependencyMap), kv.2 ≠ []) ∧
    loadInternalLines (getLines (writeInternalChars [("#t", ["s"])])) [] =
      [] ∧
    ([] : DependencyMap) ≠ [("#t", ["s"])] := by
  exact ⟨by decide, by decide, by decide⟩

/-- Amended C4: reading the written internal character stream back line by
line and loading it (from an empty map) reproduces the map, provided the
map's keys are pairwise distinct and every key is nonempty, does not start
with `#` or a space, does not end with a carriage return and holds no
embedded newline, and no dependency path ends with a carriage return or holds
an embedded newline; moreover the internal character stream
`WriteDependencies` emits is exactly `writeInternalChars m` whenever its
dependency lists are nonempty. -/
theorem claim_c4_amended (m : DependencyMap)
    (hnd : (m.map Prod.fst).Nodup)
    (hk : ∀ kv ∈ m, goodKey kv.1)
    (hd : ∀ kv ∈ m, ∀ x ∈ kv.2, goodDep x)
    (hne : ∀ kv ∈ m, kv.2 ≠ []) :
    loadInternalLines (getLines (writeInternalChars m)) [] = m ∧
    ∀ (ct cd : String → String) (lc : String),
      (WriteDependencies ct cd lc m).map (fun r => encodeLines r.2) =
        some (writeInternalChars m) := by
  have hlines : getLines (writeInternalChars m) = writeInternalLines m :=
    getLines_encodeLines (writeInternalLines m)
      (writeInternalLines_no_newline m hk hd)
  constructor
  · rw [hlines]
    unfold loadInternalLines
    have := load_write_aux m [] none hnd (by simp) hk hd
    simpa using this
  · intro ct cd lc
    have hsome : (writeMakeDeps ct cd lc m ("", [])).isSome = true :=
      (writeMakeDeps_isSome ct cd lc m ("", [])).mpr hne
    unfold WriteDependencies
    cases hw : writeMakeDeps ct cd lc m ("", []) with
    | none => rw [hw] at hsome; simp at hsome
    | some st' =>
      obtain ⟨txt, ph⟩ := st'
      simp [writeInternalChars]

/-- Witness for the amended C4 at a concrete two-dependency map. -/
theorem claim_c4_amended_witness :
    loadInternalLines (getLines (writeInternalChars [("a.o", ["a.c", "b.h"])]))
      [] = [("a.o", ["a.c", "b.h"])] :=
  (claim_c4_amended [("a.o", ["a.c", "b.h"])] (by decide) (by decide)
    (by decide) (by decide)).1

def fsC6 : FS where
  fexists := fun _ => true
  mtime := fun p => if p = "int" then 5 else 3
  readLines := fun p => if p = "int" then none else some ["x"]
  gccDeps := fun _ => none

def fsC6m : FS where
  fexists := fun p => p != "int"
  mtime := fun p => if p = "int" then 5 else 3
  readLines := fun p => if p = "int" then none else some ["x"]
  gccDeps := fun _ => none

/-- Counterexample to claim C6: an internal file that exists but cannot be
read is NOT treated like a missing one.  With the unreadable existing file
(`fsC6`) the record's timestamp (3) is not newer than the internal file's (5),
so nothing is reparsed and the status stays `true`; with the same file system
except the internal file missing (`fsC6m`), the same record IS reparsed
(status `false`, map updated) — so no full reparse is forced in the
unreadable case. -/
theorem claim_c6_cex :
    CheckDependencies fsC6 "int" ["s", "t", "msvc", "d"] [] none =
      some (true, []) ∧
    CheckDependencies fsC6m "int" ["s", "t", "msvc", "d"] [] none =
      some (false, [("t", ["s", "x"])]) := by
  exact ⟨by decide, by decide⟩

/-- Amended C6: when the internal dependency file exists but the stream fails
to open, `CheckDependencies` silently skips loading it: the passed-in map is
used unchanged and `forceReadDeps` stays `false` (records reparse only by the
timestamp test); no hard error is raised.  Only a missing internal file forces
a full reparse. -/
theorem claim_c6_amended (fs : FS) (idf : String) (files : List String)
    (m : DependencyMap) (p : Option (String → Bool))
    (hex : fs.fexists idf = true) (hun : fs.readLines idf = none) :
    CheckDependencies fs idf files m p =
      processRecords fs (fs.mtime idf) false p files (true, m) := by
  simp [CheckDependencies, hex, hun]

/-- Witness for the amended C6 at a concrete input. -/
theorem claim_c6_amended_witness :
    CheckDependencies fsC6 "int" [] [] none =
      processRecords fsC6 (fsC6.mtime "int") false none [] (true, []) :=
  claim_c6_amended fsC6 "int" [] [] none rfl rfl

/-- Claim C7: the phony-target set collected by the make-file emission loop is
duplicate-free and contains a path iff it occurs as a non-source dependency
(position greater than 0 of the converted list) of some target; each element
yields exactly one phony rule `<path>:` after the rule blocks, so a path
occurring only at index 0 gets no phony rule. -/
theorem claim_c7 (ct cd : String → String) (lc : String) (m : DependencyMap)
    (txt : String) (ph : List String)
    (h : writeMakeDeps ct cd lc m ("", []) = some (txt, ph)) :
    ph.Nodup ∧ ∀ q, q ∈ ph ↔ ∃ kv ∈ m, q ∈ (kv.2.map cd).tail := by
  obtain ⟨hnodup, hmem⟩ := writeMakeDeps_aux ct cd lc m ("", []) txt ph h
  refine ⟨hnodup (by simp), fun q => ?_⟩
  rw [hmem q]
  simp

/-- Witness for C7 at a concrete one-target map. -/
theorem claim_c7_witness :
    (["a"] : List String).Nodup ∧
    ∀ q, q ∈ (["a"] : List String) ↔
      ∃ kv ∈ ([("t", ["s", "a"])] : DependencyMap), q ∈ (kv.2.map id).tail :=
  claim_c7 id id "L" [("t", ["s", "a"])] "t: s L  a\n\n" ["a"] (by decide)

/-- Counterexample to claim C8: the parsed list `[t, t]` contains no element
different from the target `t`, yet the gcc branch is total on it (the single
leading-target erase leaves `[t]`, whose front differs from the source), so
"at least one element different from the target" is not necessary for
totality. -/
theorem claim_c8_cex :
    gccExtract "t" "s" none ["t", "t"] = some (some ["s", "t"]) ∧
    ∀ x ∈ (["t", "t"] : List String), x = "t" := by
  exact ⟨by decide, by decide⟩

/-- In the gcc branch, a nonempty paths list reaches the unguarded `front()`
exactly when the list left after the possible leading-target erase is empty. -/
theorem gccExtract_cons_eq_none (t s : String) (p : Option (String → Bool))
    (p0 : String) (ps : List String) :
    gccExtract t s p (p0 :: ps) = none ↔
      (if p0 = t then ps else p0 :: ps) = [] := by
  simp only [gccExtract]
  split
  · rename_i heq
    simp [heq]
  · rename_i d rest heq
    rw [heq]
    constructor
    · intro h
      split at h
      · split at h <;> simp at h
      · split at h <;> simp at h
    · intro h
      simp at h

/-- Amended C8: the emptiness check happens before the leading-target erase,
and the unguarded `front()` read fails exactly when the parsed list is the
singleton `[target]`; so the gcc postprocessing is total iff the parsed list
is not exactly `[target]` (one element different from the target is
sufficient for totality but not necessary). -/
theorem claim_c8_amended (t s : String) (p : Option (String → Bool))
    (paths : List String) :
    gccExtract t s p paths = none ↔ paths = [t] := by
  cases paths with
  | nil => simp [gccExtract]
  | cons p0 ps =>
    rw [gccExtract_cons_eq_none]
    by_cases h : p0 = t
    · subst h
      simp
    · simp [h]

/-- Claim C9: `WriteDependencies` is well-defined exactly when every
dependency list in the map is nonempty (otherwise it reads `front()` of an
empty vector), and a map entry with an empty list is reachable: the internal
loader produces one from a target line followed by a blank separator. -/
theorem claim_c9 :
    (∀ (ct cd : String → String) (lc : String) (m : DependencyMap),
      (WriteDependencies ct cd lc m).isSome = true ↔ ∀ kv ∈ m, kv.2 ≠ []) ∧
    loadInternalLines ["t", ""] [] = [("t", [])] := by
  constructor
  · intro ct cd lc m
    rw [← writeMakeDeps_isSome ct cd lc m ("", [])]
    unfold WriteDependencies
    cases hw : writeMakeDeps ct cd lc m ("", []) with
    | none => simp
    | some st' =>
      obtain ⟨txt, ph⟩ := st'
      simp
  · decide

/-- Claim C10: both `CheckDependencies` and `ClearDependencies` walk the flat
record sequence four entries at a time, so they are well-defined only when its
length is a multiple of 4; for any other length the iteration walks past the
end of the sequence. -/
theorem claim_c10 :
    (∀ (fs : FS) (idf : String) (files : List String) (m : DependencyMap)
      (p : Option (String → Bool)), files.length % 4 ≠ 0 →
      CheckDependencies fs idf files m p = none) ∧
    (∀ files : List String,
      (ClearDependencies files).isSome = true ↔ files.length % 4 = 0) := by
  constructor
  · intro fs idf files m p h
    unfold CheckDependencies
    split
    · exact processRecords_mod fs _ false p files _ h
    · exact processRecords_mod fs 0 true p files _ h
  · exact clearDependencies_isSome

def fsW10 : FS where
  fexists := fun _ => true
  mtime := fun _ => 3
  readLines := fun _ => none
  gccDeps := fun _ => none

/-- Witness for C10: a one-entry record sequence is rejected, a four-entry one
is accepted by the cleanup. -/
theorem claim_c10_witness :
    CheckDependencies fsW10 "i" ["a"] [] none = none ∧
    (ClearDependencies ["a", "b", "c", "d"]).isSome = true :=
  ⟨claim_c10.1 fsW10 "i" ["a"] [] none (by decide),
   (claim_c10.2 ["a", "b", "c", "d"]).mpr (by decide)⟩

end CMDeps
